import Mathlib

/-!
# PureRemove — verification of the image-processing orchestration layer

Shallow embedding of the PureRemove frontend orchestration code
(`App.tsx`, `src/types/index.ts`, `src/components/DropZone.tsx`) in Lean 4,
together with a spec-modelled `BackgroundCompositor` (the Rust backend that
implements compositing is not part of the visible sources).

Conventions:
* TypeScript optional fields (`error?: string`) become `Option String`;
  an absent / `undefined` field is `none`.
* JavaScript truthiness on strings (`error ? … : …`) is made explicit:
  the empty string is falsy.
* React `useState` / `useRef` cells become fields of an explicit `AppState`
  record; each callback of `App.tsx` becomes a state-transition function.
* The asynchronous backend (`invoke`) is modelled by passing the outcome of
  the backend call (`Except String String`) as an explicit argument, and the
  Tauri `batch-progress` events are delivered one by one through
  `deliverEvent`.
-/

namespace PureRemove

/-- `ItemStatus` from `src/types/index.ts`:
`"pending" | "processing" | "done" | "error"`. -/
inductive ItemStatus where
  | pending
  | processing
  | done
  | error
deriving DecidableEq, Repr

/-- `ImageItem` from `src/types/index.ts`.  Optional fields are `Option`s. -/
structure ImageItem where
  id : String
  name : String
  sourcePath : Option String := none
  sourceDataUrl : Option String := none
  status : ItemStatus
  resultDataUrl : Option String := none
  error : Option String := none
deriving DecidableEq, Repr

instance : Inhabited ImageItem := ⟨{ id := "", name := "", status := .pending }⟩

/-- `BatchProgressEvent` from `src/types/index.ts`. -/
structure BatchProgressEvent where
  index : Nat
  total : Nat
  name : String
  result_data_url : Option String := none
  error : Option String := none
deriving DecidableEq, Repr

/-- `AppMode` from `src/types/index.ts`: `"idle" | "single" | "batch"`. -/
inductive AppMode where
  | idle
  | single
  | batch
deriving DecidableEq, Repr

/-- `BackgroundColor` from `src/types/index.ts` (the spec's `BackgroundSpec`):
`{type:"Transparent"} | {type:"White"} | {type:"Black"} | {type:"Color",r,g,b}`. -/
inductive BackgroundColor where
  | transparent
  | white
  | black
  | color (r g b : Nat)
deriving DecidableEq, Repr

/-- The local `SingleState` interface of `App.tsx`. -/
structure SingleState where
  sourceDataUrl : String
  sourcePath : String
  resultDataUrl : String
  isProcessing : Bool
deriving DecidableEq, Repr

/-- The `singleSourceRef` cell of `App.tsx`: `{ path, dataUrl } | null`. -/
structure SourceRef where
  path : String
  dataUrl : String
deriving DecidableEq, Repr

/-- The mutable state of the `App` component: the `useState` cells
(`mode`, `single`, `batchItems`, plus the surfaced global errors) and the
`useRef` cells (`singleSourceRef`, `bgInitRef`, `batchUnlistenRef`).
`globalErrors` is the append-only log of messages surfaced via `showError`
(the auto-dismiss timeout does not un-surface an error).
`batchListener` is `true` iff a `batch-progress` listener is currently
subscribed (`batchUnlistenRef` holds a live unlisten handle). -/
structure AppState where
  mode : AppMode
  single : Option SingleState
  batchItems : List ImageItem
  globalErrors : List String
  singleSource : Option SourceRef
  bgInit : Bool
  batchListener : Bool
deriving DecidableEq, Repr

/-- `showError` from `App.tsx`: surfaces one global error message. -/
def showError (s : AppState) (msg : String) : AppState :=
  { s with globalErrors := s.globalErrors ++ [msg] }

/-- JavaScript truthiness of an optional string: `undefined` and `""` are
falsy, every non-empty string is truthy.  Used where `App.tsx` writes
`error ? … : …` and `single.sourcePath ? … : …`. -/
def strTruthy : Option String → Bool
  | none => false
  | some s => !s.isEmpty

/-- The final path segment of `p`: embeds
`p.split(/[\\/]/).pop() ?? p` from `App.tsx`.
The last element produced by splitting on `/` and `\` is exactly the maximal
separator-free suffix of `p` (and `.pop()` on a split result is never
`undefined`, so the `?? p` default is dead code). -/
def lastSeg (p : String) : String :=
  String.mk ((p.data.reverse.takeWhile (fun c => c ≠ '/' ∧ c ≠ '\\')).reverse)

/-- Strips a trailing extension: embeds `.replace(/\.[^.]+$/, "")` from
`App.tsx` (`handleSaveSingle`, `handleSaveOne`).  The regex matches iff the
string contains a dot followed by at least one character, none of which is a
dot — i.e. iff the last dot is not the last character — and removes from
that last dot to the end. -/
def stripExt (s : String) : String :=
  let rev := s.data.reverse
  let ext := rev.takeWhile (fun c => c ≠ '.')
  match rev.drop ext.length with
  | '.' :: rest => if ext.isEmpty then s else String.mk rest.reverse
  | _ => s

/-- `processSinglePath` from `App.tsx`, lines 63–78.  `path` and
`previewDataUrl` are the arguments; `res` is the outcome of the backend call
`invoke("process_single_image", …)`.  First the source ref, mode and a fresh
processing `SingleState` are set; then on success the result is stored and
`isProcessing` cleared, on failure one error is surfaced and `isProcessing`
cleared (the functional `setSingle` updates apply to the just-set state). -/
def processSinglePath (s : AppState) (path previewDataUrl : String)
    (res : Except String String) : AppState :=
  let s1 : AppState :=
    { s with
      singleSource := some ⟨path, previewDataUrl⟩
      mode := .single
      single := some ⟨previewDataUrl, path, "", true⟩ }
  match res with
  | .ok result =>
      { s1 with single := s1.single.map (fun prev =>
          { prev with resultDataUrl := result, isProcessing := false }) }
  | .error e =>
      let s2 := showError s1 ("Erreur de traitement : " ++ e)
      { s2 with
        single := s1.single.map (fun prev => { prev with isProcessing := false }) }

/-- `processClipboard` from `App.tsx`, lines 109–121.  `res` is the outcome
of `invoke("process_clipboard_image", …)`.  On success the clipboard source
(empty-string path marker) is remembered and the result shown; on failure
one error is surfaced, mode returns to idle and the single state is cleared. -/
def processClipboard (s : AppState) (res : Except String String) : AppState :=
  let s1 : AppState := { s with mode := .single, single := some ⟨"", "", "", true⟩ }
  match res with
  | .ok result =>
      { s1 with
        singleSource := some ⟨"", result⟩
        single := some ⟨result, "", result, false⟩ }
  | .error e =>
      let s2 := showError s1 ("Erreur clipboard : " ++ e)
      { s2 with mode := .idle, single := none }

/-- `reprocessClipboard` from `App.tsx`, lines 81–90.  `res` is the outcome
of `invoke("reprocess_clipboard_image", …)`. -/
def reprocessClipboard (s : AppState) (res : Except String String) : AppState :=
  let s1 : AppState :=
    { s with single := s.single.map (fun prev => { prev with isProcessing := true }) }
  match res with
  | .ok result =>
      { s1 with single := s1.single.map (fun prev =>
          { prev with resultDataUrl := result, isProcessing := false }) }
  | .error e =>
      let s2 := showError s1 ("Erreur retraitement clipboard : " ++ e)
      { s2 with
        single := s1.single.map (fun prev => { prev with isProcessing := false }) }

/-- The item-building step of `processBatch` (`App.tsx`, lines 127–132):
`paths.map(p => ({ id: generateId(), name: p.split(/[\\/]/).pop() ?? p,
sourcePath: p, status: "pending" }))`.
`generateId` lives outside the visible sources; it is modelled by the
opaque generator `gen`, fed the item's position. -/
def mkBatchItems (gen : Nat → String) (paths : List String) : List ImageItem :=
  paths.enum.map (fun ip =>
    { id := gen ip.1
      name := lastSeg ip.2
      sourcePath := some ip.2
      status := .pending })

/-- The per-item update performed by the `batch-progress` handler
(`App.tsx`, line 141) on the item whose position equals the event index:
`{ ...item, status: error ? "error" : "done", resultDataUrl: result_data_url,
error }`.  JavaScript truthiness: an empty-string `error` selects `"done"`. -/
def updItem (item : ImageItem) (e : BatchProgressEvent) : ImageItem :=
  { item with
    status := if strTruthy e.error then .error else .done
    resultDataUrl := e.result_data_url
    error := e.error }

/-- The `batch-progress` event handler (`App.tsx`, lines 139–143):
`prev.map((item, i) => i === index ? { ...item, … } : item)`. -/
def applyProgressEvent (prev : List ImageItem) (e : BatchProgressEvent) :
    List ImageItem :=
  prev.mapIdx (fun i item => if i = e.index then updItem item e else item)

/-- Folding a sequence of progress events over an item list. -/
def applyEvents (items : List ImageItem) (evs : List BatchProgressEvent) :
    List ImageItem :=
  evs.foldl applyProgressEvent items

/-- The bulk dispatch of `processBatch` (`App.tsx`, line 147):
`prev.map(item => ({ ...item, status: "processing" }))`. -/
def dispatchAll (items : List ImageItem) : List ImageItem :=
  items.map (fun item => { item with status := ItemStatus.processing })

/-- `processBatch` from `App.tsx`, lines 125–147, up to the point where
`invoke("process_batch_images", …)` is issued: clears the remembered single
source, builds the pending item list, switches to batch mode, replaces the
progress listener, and applies the bulk `"processing"` status change.
Individual completions then arrive through `deliverEvent`. -/
def processBatch (s : AppState) (gen : Nat → String) (paths : List String) :
    AppState :=
  { s with
    singleSource := none
    batchItems := dispatchAll (mkBatchItems gen paths)
    mode := .batch
    batchListener := true }

/-- Delivery of one `batch-progress` event: the handler registered by
`processBatch` runs only while the subscription is live (`batchListener`);
after `handleReset` unsubscribes, the event is dropped. -/
def deliverEvent (s : AppState) (e : BatchProgressEvent) : AppState :=
  if s.batchListener then
    { s with batchItems := applyProgressEvent s.batchItems e }
  else s

/-- Delivery of a sequence of `batch-progress` events. -/
def deliverEvents (s : AppState) (evs : List BatchProgressEvent) : AppState :=
  evs.foldl deliverEvent s

/-- `handleReset` from `App.tsx`, lines 199–205: unsubscribes the batch
listener, clears the remembered source, returns to idle and discards the
single state and the batch item list. -/
def handleReset (s : AppState) : AppState :=
  { s with
    batchListener := false
    singleSource := none
    mode := .idle
    single := none
    batchItems := [] }

/-- The backend commands `App.tsx` can issue for (re)processing. -/
inductive Command where
  | processSingleImage (path : String) (previewDataUrl : String)
  | processClipboardImage
  | reprocessClipboardImage
  | processBatchImages (paths : List String)
deriving DecidableEq, Repr

/-- Which processing pipeline each command runs.  Modelled from the spec:
the Rust backend is outside the visible sources; per §4.3,
`reprocess_clipboard_image` re-runs infer → composite → encode against the
cached clipboard buffer "without touching the clipboard again", while
`process_clipboard_image` reads the system clipboard. -/
def readsClipboard : Command → Bool
  | .processClipboardImage => true
  | _ => false

/-- The background-change effect of `App.tsx`, lines 93–105: on the first
render (`bgInitRef`) it does nothing; otherwise, if a single source is
remembered and the app is in single mode, it triggers the clipboard
reprocess for the empty-string (clipboard) marker and the full path
pipeline otherwise.  Returns the command the effect issues, if any. -/
def onBackgroundChange (s : AppState) : Option Command :=
  if s.bgInit then none
  else
    match s.singleSource, s.mode with
    | some src, .single =>
        if src.path = "" then some .reprocessClipboardImage
        else some (.processSingleImage src.path src.dataUrl)
    | _, _ => none

/-- The routing decision of `handlePaths` (`App.tsx`, lines 158–166). -/
inductive Route where
  | single (path : String)
  | batch (paths : List String)
deriving DecidableEq, Repr

/-- `handlePaths` from `App.tsx`: one path goes to the single pipeline
(`paths[0]`, modelled by `headD` — with length 1 the default is dead),
anything else goes to the batch pipeline with the whole list. -/
def handlePaths (paths : List String) : Route :=
  if paths.length = 1 then .single (paths.headD "") else .batch paths

/-- The suggested save name of `handleSaveSingle` (`App.tsx`, lines 177–197):
`baseName = sourcePath ? (sourcePath.split(/[\\/]/).pop()?.replace(/\.[^.]+$/, "")
?? "output") : "output"`, then `baseName + "_nobg.png"`.  The `??` default is
dead (`.pop()` of a split is never `undefined`); the leading truthiness test
sends the clipboard empty-string marker to `"output"`. -/
def suggestedSingleSaveName (single : SingleState) : String :=
  let baseName :=
    if strTruthy (some single.sourcePath) then stripExt (lastSeg single.sourcePath)
    else "output"
  baseName ++ "_nobg.png"

/-- The suggested save name of `handleSaveOne` (`App.tsx`, lines 209–220):
`stem = item.name.replace(/\.[^.]+$/, "")`, then `stem + "_nobg.png"`. -/
def suggestedBatchSaveName (item : ImageItem) : String :=
  stripExt item.name ++ "_nobg.png"

/-- An RGBA pixel, each channel an integer in `[0,255]`. -/
structure RGBA where
  r : Nat
  g : Nat
  b : Nat
  a : Nat
deriving DecidableEq, Repr

/-- Modelled from the spec: the linear blend of §4.1 for one channel,
`mask * source_channel + (1-mask) * background_channel` with the mask in
fixed-point `[0,255]`, rounded half-up to the nearest integer channel value
(for integer `x`, round-half-up of `x/255` is `(x + 127) / 255`). -/
def blendChannel (m src bg : Nat) : Nat :=
  (m * src + (255 - m) * bg + 127) / 255

/-- Modelled from the spec: the `BackgroundCompositor` of §4.1.  The Rust
backend implementing it is not among the visible sources.  `composite`
takes the decoded RGBA buffer, the single-channel soft-alpha mask (same
pixel count, fixed-point `[0,255]`) and the background spec; it fails
(`none`, the `DimensionMismatch` defensive check) iff the dimensions
disagree.  `Transparent` keeps RGB and writes the mask into alpha;
`White`/`Black`/`Color` blend each channel against the background and
produce a fully opaque pixel. -/
def composite (pixels : List RGBA) (mask : List Nat) (spec : BackgroundColor) :
    Option (List RGBA) :=
  if pixels.length = mask.length then
    some ((pixels.zip mask).map (fun pm =>
      match spec with
      | .transparent => ⟨pm.1.r, pm.1.g, pm.1.b, pm.2⟩
      | .white => ⟨blendChannel pm.2 pm.1.r 255, blendChannel pm.2 pm.1.g 255,
                   blendChannel pm.2 pm.1.b 255, 255⟩
      | .black => ⟨blendChannel pm.2 pm.1.r 0, blendChannel pm.2 pm.1.g 0,
                   blendChannel pm.2 pm.1.b 0, 255⟩
      | .color r g b => ⟨blendChannel pm.2 pm.1.r r, blendChannel pm.2 pm.1.g g,
                         blendChannel pm.2 pm.1.b b, 255⟩))
  else none

/-- The successive `batchItems` states of one batch run, as observed by the
UI: stage 0 is the freshly built pending list, stage 1 the bulk
`"processing"` change, and stage `k+1` the bulk state with the first `k`
completion events applied. -/
def runStage (gen : Nat → String) (paths : List String)
    (evs : List BatchProgressEvent) : Nat → List ImageItem
  | 0 => mkBatchItems gen paths
  | k + 1 => applyEvents (dispatchAll (mkBatchItems gen paths)) (evs.take k)

/-- The forward status order of the claimed per-item state machine:
a status may stay put, `pending` may advance, `processing` may reach a
terminal status, and `done`/`error` are final. -/
def statusForward (a b : ItemStatus) : Prop :=
  a = b ∨
    (a = .pending ∧ (b = .processing ∨ b = .done ∨ b = .error)) ∨
    (a = .processing ∧ (b = .done ∨ b = .error))

instance (a b : ItemStatus) : Decidable (statusForward a b) := by
  unfold statusForward; infer_instance

/-- The payload/error field invariant claimed for batch items. -/
def statusFieldsOk (item : ImageItem) : Prop :=
  (item.resultDataUrl.isSome ↔ item.status = .done) ∧
  (item.error.isSome ↔ item.status = .error) ∧
  ¬(item.resultDataUrl.isSome ∧ item.error.isSome) ∧
  ((item.status = .pending ∨ item.status = .processing) →
    item.resultDataUrl = none ∧ item.error = none)

instance (item : ImageItem) : Decidable (statusFieldsOk item) := by
  unfold statusFieldsOk; infer_instance

/-- A completion event carrying exactly one outcome: a result payload with
no error, or a truthy (present and non-empty) error message with no result
payload. -/
def eventWellFormed (e : BatchProgressEvent) : Prop :=
  (e.error = none ∧ e.result_data_url.isSome) ∨
  (strTruthy e.error = true ∧ e.result_data_url = none)

instance (e : BatchProgressEvent) : Decidable (eventWellFormed e) := by
  unfold eventWellFormed; infer_instance

/-- The item and event of the C2/C4 boundary case: an event whose `error`
field is present but holds the empty string. -/
def processingItem : ImageItem :=
  { id := "0", name := "a", sourcePath := some "a", status := .processing }

def emptyErrorEvent : BatchProgressEvent :=
  { index := 0, total := 1, name := "a", error := some "" }

/-- A concrete state exercising `background_change_routing`. -/
def stateC6 : AppState :=
  { mode := .single
    single := some ⟨"d", "", "r", false⟩
    batchItems := []
    globalErrors := []
    singleSource := some ⟨"", "d"⟩
    bgInit := false
    batchListener := false }

/-! ## Basic lemmas about the batch operations -/

theorem length_applyProgressEvent (l : List ImageItem) (e : BatchProgressEvent) :
    (applyProgressEvent l e).length = l.length := by
  simp [applyProgressEvent, List.length_mapIdx]

theorem get_applyProgressEvent (l : List ImageItem) (e : BatchProgressEvent)
    (i : Nat) (h : i < l.length) (h' : i < (applyProgressEvent l e).length) :
    (applyProgressEvent l e).get ⟨i, h'⟩ =
      if i = e.index then updItem (l.get ⟨i, h⟩) e else l.get ⟨i, h⟩ := by
  simp only [applyProgressEvent]
  exact List.get_mapIdx l _ i h

theorem length_applyEvents (l : List ImageItem) (evs : List BatchProgressEvent) :
    (applyEvents l evs).length = l.length := by
  induction evs generalizing l with
  | nil => rfl
  | cons e evs ih => simp [applyEvents, List.foldl_cons] at ih ⊢
                     rw [ih, length_applyProgressEvent]

theorem applyEvents_append (l : List ImageItem) (evs₁ evs₂ : List BatchProgressEvent) :
    applyEvents l (evs₁ ++ evs₂) = applyEvents (applyEvents l evs₁) evs₂ := by
  simp [applyEvents, List.foldl_append]

/-- Positions no event addresses are left untouched by a whole event sequence. -/
theorem get_applyEvents_untouched (evs : List BatchProgressEvent)
    (l : List ImageItem) (i : Nat) (h : i < l.length)
    (h' : i < (applyEvents l evs).length)
    (hun : ∀ e ∈ evs, e.index ≠ i) :
    (applyEvents l evs).get ⟨i, h'⟩ = l.get ⟨i, h⟩ := by
  induction evs generalizing l with
  | nil => rfl
  | cons e evs ih =>
      have he : e.index ≠ i := hun e (List.mem_cons_self e evs)
      have h₁ : i < (applyProgressEvent l e).length := by
        rw [length_applyProgressEvent]; exact h
      calc (applyEvents l (e :: evs)).get ⟨i, h'⟩
          = (applyEvents (applyProgressEvent l e) evs).get ⟨i, h'⟩ := rfl
        _ = (applyProgressEvent l e).get ⟨i, h₁⟩ :=
            ih (applyProgressEvent l e) h₁ h'
              (fun e' he' => hun e' (List.mem_cons_of_mem e he'))
        _ = l.get ⟨i, h⟩ := by
            rw [get_applyProgressEvent l e i h h₁, if_neg (fun hh => he hh.symm)]

theorem length_mkBatchItems (gen : Nat → String) (paths : List String) :
    (mkBatchItems gen paths).length = paths.length := by
  simp [mkBatchItems]

theorem get_mkBatchItems (gen : Nat → String) (paths : List String)
    (j : Nat) (hj : j < paths.length) (hj' : j < (mkBatchItems gen paths).length) :
    (mkBatchItems gen paths).get ⟨j, hj'⟩ =
      { id := gen j
        name := lastSeg (paths.get ⟨j, hj⟩)
        sourcePath := some (paths.get ⟨j, hj⟩)
        status := .pending } := by
  simp [mkBatchItems, List.get_eq_getElem, List.getElem_map, List.getElem_enum]

theorem length_dispatchAll (l : List ImageItem) :
    (dispatchAll l).length = l.length := by
  simp [dispatchAll]

theorem get_dispatchAll (l : List ImageItem) (j : Nat) (hj : j < l.length)
    (hj' : j < (dispatchAll l).length) :
    (dispatchAll l).get ⟨j, hj'⟩ =
      { l.get ⟨j, hj⟩ with status := ItemStatus.processing } := by
  simp [dispatchAll, List.get_eq_getElem, List.getElem_map]

/-- JavaScript truthiness of an optional string is exactly "present and
non-empty". -/
theorem strTruthy_iff (o : Option String) :
    strTruthy o = true ↔ ∃ m, o = some m ∧ m ≠ "" := by
  cases o with
  | none => simp [strTruthy]
  | some m =>
      simp only [strTruthy, Bool.not_eq_true', Option.some.injEq]
      constructor
      · intro hm
        refine ⟨m, rfl, fun hc => ?_⟩
        subst hc
        exact absurd hm (by decide)
      · rintro ⟨m2, hm2, hne⟩
        subst hm2
        cases hme : m.isEmpty
        · rfl
        · exact absurd ((String.isEmpty_iff m).mp hme) hne

/-- A state with no live batch subscription drops every delivered event. -/
theorem deliverEvents_of_listener_false (s : AppState) (hs : s.batchListener = false)
    (evs : List BatchProgressEvent) : deliverEvents s evs = s := by
  induction evs with
  | nil => rfl
  | cons e evs ih =>
      have : deliverEvent s e = s := by simp [deliverEvent, hs]
      simp [deliverEvents, List.foldl_cons, this]
      simpa [deliverEvents] using ih

/-! ## Claim theorems -/

/-- C10: for every non-empty submitted path list, `handlePaths` routes a
one-element list to the single-image pipeline with that path, a list of two
or more paths to the batch pipeline with the whole list, and never routes
one list to both pipelines. -/
theorem handlePaths_routing (paths : List String) (hne : paths ≠ []) :
    (∀ p, paths = [p] → handlePaths paths = Route.single p) ∧
    (2 ≤ paths.length → handlePaths paths = Route.batch paths) ∧
    (∀ p, ¬(handlePaths paths = Route.single p ∧
            handlePaths paths = Route.batch paths)) := by
  refine ⟨?_, ?_, ?_⟩
  · rintro p rfl; rfl
  · intro h2
    simp only [handlePaths, if_neg (show ¬paths.length = 1 by omega)]
  · rintro p ⟨h1, h2⟩
    rw [h1] at h2
    exact Route.noConfusion h2

theorem handlePaths_routing_witness :
    handlePaths ["a"] = Route.single "a" ∧
    handlePaths ["a", "b"] = Route.batch ["a", "b"] :=
  ⟨(handlePaths_routing ["a"] (by decide)).1 "a" rfl,
   (handlePaths_routing ["a", "b"] (by decide)).2.1 (by decide)⟩

/-- C7: `handleReset` removes the progress-event subscription and discards
the item list, and every progress event delivered after the reset leaves the
state — in particular the (now empty) item list and every item of the
discarded list — completely unchanged. -/
theorem handleReset_discards_and_drops (s : AppState)
    (evs : List BatchProgressEvent) :
    (handleReset s).batchListener = false ∧
    (handleReset s).batchItems = [] ∧
    deliverEvents (handleReset s) evs = handleReset s :=
  ⟨rfl, rfl, deliverEvents_of_listener_false (handleReset s) rfl evs⟩

/-- C5: a failed path-based single process surfaces exactly one error and
leaves the single state with an empty result payload and processing over;
a failed clipboard capture surfaces exactly one error, returns the mode to
idle and clears the single state entirely. -/
theorem single_failure_one_error_no_partial (s : AppState)
    (path previewDataUrl msg : String) :
    ((processSinglePath s path previewDataUrl (.error msg)).globalErrors.length
        = s.globalErrors.length + 1 ∧
     (processSinglePath s path previewDataUrl (.error msg)).single
        = some ⟨previewDataUrl, path, "", false⟩) ∧
    ((processClipboard s (.error msg)).globalErrors.length
        = s.globalErrors.length + 1 ∧
     (processClipboard s (.error msg)).mode = .idle ∧
     (processClipboard s (.error msg)).single = none) := by
  refine ⟨⟨?_, ?_⟩, ?_, ?_, ?_⟩ <;>
    simp [processSinglePath, processClipboard, showError]

/-- C6: with the init guard passed, a background change in single mode
issues the clipboard reprocess command — which does not read the clipboard —
when the remembered source carries the clipboard empty-string marker, and
re-runs the full path pipeline on the remembered path otherwise; submitting
a batch clears the remembered source and the background-change effect then
issues no command at all. -/
theorem background_change_routing (s : AppState) (h : s.bgInit = false) :
    (∀ d, s.singleSource = some ⟨"", d⟩ → s.mode = .single →
       onBackgroundChange s = some .reprocessClipboardImage ∧
       readsClipboard .reprocessClipboardImage = false) ∧
    (∀ p d, s.singleSource = some ⟨p, d⟩ → p ≠ "" → s.mode = .single →
       onBackgroundChange s = some (.processSingleImage p d)) ∧
    (∀ gen paths, (processBatch s gen paths).singleSource = none ∧
       onBackgroundChange (processBatch s gen paths) = none) := by
  refine ⟨?_, ?_, ?_⟩
  · intro d hsrc hmode
    exact ⟨by simp [onBackgroundChange, h, hsrc, hmode], rfl⟩
  · intro p d hsrc hp hmode
    simp [onBackgroundChange, h, hsrc, hmode, hp]
  · intro gen paths
    refine ⟨rfl, ?_⟩
    cases hb : s.bgInit <;> simp [onBackgroundChange, processBatch, hb]

/-- C1: batch submission builds exactly one item per submitted path, in
submission order, each initially `pending` and named by the final path
segment of its source path; the run's first transition is the bulk change
of every item to `processing`, and every completion event is applied only
to states at or after that bulk change. -/
theorem batch_submission_shape (gen : Nat → String) (paths : List String)
    (evs : List BatchProgressEvent) :
    ((runStage gen paths evs 0).length = paths.length ∧
     ∀ j (hj : j < paths.length) (hj' : j < (runStage gen paths evs 0).length),
       ((runStage gen paths evs 0).get ⟨j, hj'⟩).status = .pending ∧
       ((runStage gen paths evs 0).get ⟨j, hj'⟩).name
          = lastSeg (paths.get ⟨j, hj⟩) ∧
       ((runStage gen paths evs 0).get ⟨j, hj'⟩).sourcePath
          = some (paths.get ⟨j, hj⟩)) ∧
    (runStage gen paths evs 1 = dispatchAll (runStage gen paths evs 0) ∧
     ∀ j (hj' : j < (runStage gen paths evs 1).length),
       ((runStage gen paths evs 1).get ⟨j, hj'⟩).status = .processing) ∧
    (∀ s : AppState, (processBatch s gen paths).batchItems
        = runStage gen paths evs 1) ∧
    (∀ k, runStage gen paths evs (k + 1)
        = applyEvents (runStage gen paths evs 1) (evs.take k)) := by
  refine ⟨⟨length_mkBatchItems gen paths, ?_⟩, ⟨rfl, ?_⟩, fun s => rfl, fun k => rfl⟩
  · intro j hj hj'
    show ((mkBatchItems gen paths).get ⟨j, hj'⟩).status = .pending ∧
      ((mkBatchItems gen paths).get ⟨j, hj'⟩).name = lastSeg (paths.get ⟨j, hj⟩) ∧
      ((mkBatchItems gen paths).get ⟨j, hj'⟩).sourcePath = some (paths.get ⟨j, hj⟩)
    rw [get_mkBatchItems gen paths j hj hj']
    exact ⟨rfl, rfl, rfl⟩
  · intro j hj'
    have hj₀ : j < (mkBatchItems gen paths).length := by
      have h1 := hj'
      rw [show runStage gen paths evs 1 = dispatchAll (mkBatchItems gen paths)
            from rfl, length_dispatchAll] at h1
      exact h1
    show ((dispatchAll (mkBatchItems gen paths)).get ⟨j, hj'⟩).status = .processing
    rw [get_dispatchAll (mkBatchItems gen paths) j hj₀ hj']

theorem batch_submission_shape_witness :
    ((runStage (fun _ => "i") ["a/x.png"] [] 0).get
        ⟨0, by decide⟩).status = ItemStatus.pending ∧
    ((runStage (fun _ => "i") ["a/x.png"] [] 0).get
        ⟨0, by decide⟩).name = lastSeg (["a/x.png"].get ⟨0, by decide⟩) ∧
    ((runStage (fun _ => "i") ["a/x.png"] [] 0).get
        ⟨0, by decide⟩).sourcePath = some (["a/x.png"].get ⟨0, by decide⟩) :=
  (batch_submission_shape (fun _ => "i") ["a/x.png"] []).1.2 0 (by decide) (by decide)

theorem get_congr_of_eq {l₁ l₂ : List ImageItem} (h : l₁ = l₂) (j : Nat)
    (h₁ : j < l₁.length) (h₂ : j < l₂.length) :
    l₁.get ⟨j, h₁⟩ = l₂.get ⟨j, h₂⟩ := by
  subst h; rfl

theorem runStage_length (gen : Nat → String) (paths : List String)
    (evs : List BatchProgressEvent) (k : Nat) :
    (runStage gen paths evs k).length = paths.length := by
  cases k with
  | zero => exact length_mkBatchItems gen paths
  | succ k =>
      show (applyEvents (dispatchAll (mkBatchItems gen paths)) (evs.take k)).length
        = paths.length
      rw [length_applyEvents, length_dispatchAll, length_mkBatchItems]

/-- In a run whose events carry pairwise-distinct indices, no event before
position `k` shares the index of the event at position `k`. -/
theorem take_index_ne (evs : List BatchProgressEvent)
    (hnd : (evs.map (fun e => e.index)).Nodup) (k : Nat) (hk : k < evs.length) :
    ∀ e' ∈ evs.take k, e'.index ≠ (evs.get ⟨k, hk⟩).index := by
  intro e' he' heq
  rcases List.mem_iff_get.mp he' with ⟨⟨i, hi⟩, hget⟩
  have hik : i < k := by
    have h1 := hi
    rw [List.length_take] at h1
    omega
  have hie : i < evs.length := Nat.lt_trans hik hk
  have hgati : (evs.take k).get ⟨i, hi⟩ = evs.get ⟨i, hie⟩ := by
    simp [List.get_eq_getElem, List.getElem_take]
  have hmi : i < (evs.map (fun e => e.index)).length := by
    rw [List.length_map]; exact hie
  have hmk : k < (evs.map (fun e => e.index)).length := by
    rw [List.length_map]; exact hk
  have hmap : (evs.map (fun e => e.index)).get ⟨i, hmi⟩
      = (evs.map (fun e => e.index)).get ⟨k, hmk⟩ := by
    have h1 : (evs.map (fun e => e.index)).get ⟨i, hmi⟩ = (evs.get ⟨i, hie⟩).index := by
      simp [List.get_eq_getElem, List.getElem_map]
    have h2 : (evs.map (fun e => e.index)).get ⟨k, hmk⟩ = (evs.get ⟨k, hk⟩).index := by
      simp [List.get_eq_getElem, List.getElem_map]
    rw [h1, h2, ← hgati, hget]
    exact heq
  have hfin := hnd.get_inj_iff.mp hmap
  have : i = k := by
    have := Fin.mk.injEq i hmi k hmk ▸ hfin
    exact Fin.mk_eq_mk.mp hfin
  omega

/-- C3: along the stages of a batch run — creation, the bulk dispatch, and
the run's completion events (one event per item: pairwise-distinct
indices) — each item's status only moves forward along
pending → processing → {done, error}: a terminal status never changes and
no status returns to pending or processing. -/
theorem batch_status_monotone (gen : Nat → String) (paths : List String)
    (evs : List BatchProgressEvent)
    (hnd : (evs.map (fun e => e.index)).Nodup) (k j : Nat)
    (hj : j < (runStage gen paths evs k).length)
    (hj' : j < (runStage gen paths evs (k + 1)).length) :
    statusForward ((runStage gen paths evs k).get ⟨j, hj⟩).status
      ((runStage gen paths evs (k + 1)).get ⟨j, hj'⟩).status := by
  have hjp : j < paths.length := by rw [runStage_length] at hj; exact hj
  have h0 : j < (mkBatchItems gen paths).length := by
    rw [length_mkBatchItems]; exact hjp
  cases k with
  | zero =>
      have e0 : ((runStage gen paths evs 0).get ⟨j, hj⟩).status = .pending := by
        show ((mkBatchItems gen paths).get ⟨j, hj⟩).status = .pending
        rw [get_mkBatchItems gen paths j hjp hj]
      have e1 : ((runStage gen paths evs 1).get ⟨j, hj'⟩).status = .processing := by
        show ((dispatchAll (mkBatchItems gen paths)).get ⟨j, hj'⟩).status = .processing
        rw [get_dispatchAll (mkBatchItems gen paths) j h0 hj']
      rw [e0, e1]
      exact Or.inr (Or.inl ⟨rfl, Or.inl rfl⟩)
  | succ k =>
      by_cases hk : k < evs.length
      · have htake : evs.take (k + 1) = evs.take k ++ [evs.get ⟨k, hk⟩] := by
          rw [List.take_succ]
          congr 1
          simp [List.getElem?_eq_getElem hk, List.get_eq_getElem]
        have hstep : runStage gen paths evs (k + 2)
            = applyProgressEvent (runStage gen paths evs (k + 1)) (evs.get ⟨k, hk⟩) := by
          show applyEvents (dispatchAll (mkBatchItems gen paths)) (evs.take (k + 1)) = _
          rw [htake, applyEvents_append]
          rfl
        have hja : j < (applyProgressEvent (runStage gen paths evs (k + 1))
            (evs.get ⟨k, hk⟩)).length := by
          rw [length_applyProgressEvent]; exact hj
        rw [get_congr_of_eq hstep j hj' hja,
          get_applyProgressEvent _ (evs.get ⟨k, hk⟩) j hj hja]
        by_cases hje : j = (evs.get ⟨k, hk⟩).index
        · rw [if_pos hje]
          have hold : ((runStage gen paths evs (k + 1)).get ⟨j, hj⟩).status
              = .processing := by
            have hdj : j < (dispatchAll (mkBatchItems gen paths)).length := by
              rw [length_dispatchAll]; exact h0
            have huntouched := get_applyEvents_untouched (evs.take k)
              (dispatchAll (mkBatchItems gen paths)) j hdj hj
              (fun e' he' hej => (take_index_ne evs hnd k hk e' he') (hej.trans hje))
            show ((applyEvents (dispatchAll (mkBatchItems gen paths))
              (evs.take k)).get ⟨j, hj⟩).status = .processing
            rw [huntouched, get_dispatchAll (mkBatchItems gen paths) j h0 hdj]
          rw [hold]
          refine Or.inr (Or.inr ⟨rfl, ?_⟩)
          cases htr : strTruthy (evs.get ⟨k, hk⟩).error <;>
            simp [updItem, htr]
        · rw [if_neg hje]
          exact Or.inl rfl
      · have hEq : runStage gen paths evs (k + 2) = runStage gen paths evs (k + 1) := by
          show applyEvents (dispatchAll (mkBatchItems gen paths)) (evs.take (k + 1))
            = applyEvents (dispatchAll (mkBatchItems gen paths)) (evs.take k)
          rw [List.take_of_length_le (by omega), List.take_of_length_le (by omega)]
        rw [get_congr_of_eq hEq j hj' hj]
        exact Or.inl rfl

theorem batch_status_monotone_witness :
    statusForward
      ((runStage (fun _ => "0") ["a"] [⟨0, 1, "a", some "r", none⟩] 1).get
        ⟨0, by decide⟩).status
      ((runStage (fun _ => "0") ["a"] [⟨0, 1, "a", some "r", none⟩] 2).get
        ⟨0, by decide⟩).status :=
  batch_status_monotone (fun _ => "0") ["a"] [⟨0, 1, "a", some "r", none⟩]
    (by decide) 1 0 (by decide) (by decide)

/-- C2 counterexample: the progress handler tests the error field with
JavaScript truthiness, so an event whose `error` field is present but empty
marks the addressed item `done`, not `error`. -/
theorem apply_event_empty_error_cex :
    emptyErrorEvent.error.isSome = true ∧
    (applyProgressEvent [processingItem] emptyErrorEvent).map
        (fun it => it.status) = [ItemStatus.done] ∧
    ItemStatus.done ≠ ItemStatus.error := by decide

/-- C2 (amended): applying a progress event carrying index `i` mutates only
the item at position `i` — setting its status to error when the event's
error field is present *and non-empty* (JavaScript truthiness) and to done
otherwise, and storing the event's result payload and error on that item —
while every other position is unchanged; identification is purely by the
event's index. -/
theorem apply_event_frame (l : List ImageItem) (e : BatchProgressEvent) :
    (applyProgressEvent l e).length = l.length ∧
    (∀ j (hj : j < l.length) (hj' : j < (applyProgressEvent l e).length),
       j ≠ e.index → (applyProgressEvent l e).get ⟨j, hj'⟩ = l.get ⟨j, hj⟩) ∧
    (∀ (hi : e.index < l.length)
       (hi' : e.index < (applyProgressEvent l e).length),
       (applyProgressEvent l e).get ⟨e.index, hi'⟩ =
         { l.get ⟨e.index, hi⟩ with
           status := if strTruthy e.error then .error else .done
           resultDataUrl := e.result_data_url
           error := e.error }) ∧
    (strTruthy e.error = true ↔ ∃ m, e.error = some m ∧ m ≠ "") := by
  refine ⟨length_applyProgressEvent l e, ?_, ?_, strTruthy_iff e.error⟩
  · intro j hj hj' hne
    rw [get_applyProgressEvent l e j hj hj', if_neg hne]
  · intro hi hi'
    rw [get_applyProgressEvent l e e.index hi hi', if_pos rfl]
    rfl

theorem apply_event_frame_witness :
    (applyProgressEvent [processingItem] ⟨0, 1, "a", some "r", none⟩).get
        ⟨0, by decide⟩ =
      { processingItem with
        status := if strTruthy (none : Option String) then .error else .done
        resultDataUrl := some "r"
        error := none } :=
  (apply_event_frame [processingItem] ⟨0, 1, "a", some "r", none⟩).2.2.1
    (by decide) (by decide)

/-- C4 counterexample: applying a progress event that carries neither a
result payload nor an error (both fields absent — an "arbitrary payload")
to the dispatched one-item batch yields an item whose status is done while
its result payload is absent, so the claimed field invariant fails. -/
theorem batch_fields_invariant_cex :
    ¬ ∀ item ∈ applyProgressEvent
        (dispatchAll (mkBatchItems (fun _ => "0") ["a"]))
        ⟨0, 1, "a", none, none⟩, statusFieldsOk item := by decide

/-- An update by a well-formed completion event restores the field
invariant on the addressed item. -/
theorem updItem_fields_ok (item : ImageItem) (e : BatchProgressEvent)
    (he : eventWellFormed e) : statusFieldsOk (updItem item e) := by
  rcases he with ⟨he1, he2⟩ | ⟨hm, hm3⟩
  · rcases Option.isSome_iff_exists.mp he2 with ⟨r, hr⟩
    simp [updItem, statusFieldsOk, he1, hr, strTruthy]
  · rcases (strTruthy_iff e.error).mp hm with ⟨m, hmm, hne⟩
    rw [hmm] at hm
    simp [updItem, statusFieldsOk, hm, hmm, hm3]

/-- The field invariant is preserved across one event application. -/
theorem statusFieldsOk_applyProgressEvent (l : List ImageItem)
    (e : BatchProgressEvent) (he : eventWellFormed e)
    (hl : ∀ j (hj : j < l.length), statusFieldsOk (l.get ⟨j, hj⟩)) :
    ∀ j (hj : j < (applyProgressEvent l e).length),
      statusFieldsOk ((applyProgressEvent l e).get ⟨j, hj⟩) := by
  intro j hj
  have hj₀ : j < l.length := by rw [length_applyProgressEvent] at hj; exact hj
  rw [get_applyProgressEvent l e j hj₀ hj]
  by_cases hje : j = e.index
  · rw [if_pos hje]; exact updItem_fields_ok _ e he
  · rw [if_neg hje]; exact hl j hj₀

/-- The field invariant is preserved across any sequence of well-formed
completion events. -/
theorem statusFieldsOk_applyEvents (evs : List BatchProgressEvent)
    (l : List ImageItem) (hwf : ∀ e ∈ evs, eventWellFormed e)
    (hl : ∀ j (hj : j < l.length), statusFieldsOk (l.get ⟨j, hj⟩)) :
    ∀ j (hj : j < (applyEvents l evs).length),
      statusFieldsOk ((applyEvents l evs).get ⟨j, hj⟩) := by
  induction evs generalizing l with
  | nil => exact hl
  | cons e evs ih =>
      intro j hj
      exact ih (applyProgressEvent l e)
        (fun e' he' => hwf e' (List.mem_cons_of_mem e he'))
        (statusFieldsOk_applyProgressEvent l e (hwf e (List.mem_cons_self e evs)) hl)
        j hj

/-- C4 (amended): in every state of a batch run whose completion events each
carry exactly one outcome — a result payload, or a non-empty error, never
both and never neither — every item satisfies the field invariant: result
payload present iff done, error present iff error, never both present,
and both absent while pending or processing. -/
theorem batch_fields_invariant (gen : Nat → String) (paths : List String)
    (evs : List BatchProgressEvent) (hwf : ∀ e ∈ evs, eventWellFormed e)
    (k j : Nat) (hj : j < (runStage gen paths evs k).length) :
    statusFieldsOk ((runStage gen paths evs k).get ⟨j, hj⟩) := by
  cases k with
  | zero =>
      have hj₀ : j < paths.length := by
        rw [show runStage gen paths evs 0 = mkBatchItems gen paths from rfl,
          length_mkBatchItems] at hj
        exact hj
      show statusFieldsOk ((mkBatchItems gen paths).get ⟨j, hj⟩)
      rw [get_mkBatchItems gen paths j hj₀ hj]
      simp [statusFieldsOk]
  | succ k =>
      show statusFieldsOk ((applyEvents (dispatchAll (mkBatchItems gen paths))
        (evs.take k)).get ⟨j, hj⟩)
      refine statusFieldsOk_applyEvents (evs.take k)
        (dispatchAll (mkBatchItems gen paths))
        (fun e he => hwf e (List.take_subset k evs he)) ?_ j hj
      intro i hi
      have hi₀ : i < (mkBatchItems gen paths).length := by
        rw [length_dispatchAll] at hi; exact hi
      have hi₁ : i < paths.length := by rw [length_mkBatchItems] at hi₀; exact hi₀
      rw [get_dispatchAll (mkBatchItems gen paths) i hi₀ hi,
        get_mkBatchItems gen paths i hi₁ hi₀]
      simp [statusFieldsOk]

theorem batch_fields_invariant_witness :
    statusFieldsOk ((runStage (fun _ => "0") ["a"]
        [⟨0, 1, "a", some "r", none⟩] 2).get ⟨0, by decide⟩) :=
  batch_fields_invariant (fun _ => "0") ["a"] [⟨0, 1, "a", some "r", none⟩]
    (by decide) 2 0 (by decide)

/-- C8: for the `Transparent` background spec, compositing equal-sized
buffers succeeds and, pixel for pixel, the output RGB channels equal the
source RGB channels exactly while the output alpha channel equals the mask
value. -/
theorem composite_transparent (pixels : List RGBA) (mask : List Nat)
    (hlen : pixels.length = mask.length) :
    ∃ out, composite pixels mask .transparent = some out ∧
      out.length = pixels.length ∧
      ∀ i (hi : i < pixels.length) (hm : i < mask.length) (ho : i < out.length),
        out.get ⟨i, ho⟩ =
          { r := (pixels.get ⟨i, hi⟩).r
            g := (pixels.get ⟨i, hi⟩).g
            b := (pixels.get ⟨i, hi⟩).b
            a := mask.get ⟨i, hm⟩ } := by
  refine ⟨(pixels.zip mask).map (fun pm => ⟨pm.1.r, pm.1.g, pm.1.b, pm.2⟩), ?_, ?_, ?_⟩
  · simp [composite, hlen]
  · simp [List.length_zip, hlen]
  · intro i hi hm ho
    simp [List.get_eq_getElem, List.getElem_map, List.getElem_zip]

theorem composite_transparent_witness :
    ∃ out, composite [⟨10, 20, 30, 200⟩] [7] .transparent = some out ∧
      out.length = 1 ∧
      ∀ i (hi : i < ([⟨10, 20, 30, 200⟩] : List RGBA).length)
        (hm : i < ([7] : List Nat).length) (ho : i < out.length),
        out.get ⟨i, ho⟩ =
          { r := (([⟨10, 20, 30, 200⟩] : List RGBA).get ⟨i, hi⟩).r
            g := (([⟨10, 20, 30, 200⟩] : List RGBA).get ⟨i, hi⟩).g
            b := (([⟨10, 20, 30, 200⟩] : List RGBA).get ⟨i, hi⟩).b
            a := ([7] : List Nat).get ⟨i, hm⟩ } :=
  composite_transparent [⟨10, 20, 30, 200⟩] [7] (by decide)

/-- Splitting on path separators: the final segment of `dir` + separator +
separator-free `fn` is `fn`, for either separator character. -/
theorem lastSeg_append_sep (dir : String) (sep : Char) (fn : String)
    (hsep : sep = '/' ∨ sep = '\\')
    (hfn : ∀ c ∈ fn.data, c ≠ '/' ∧ c ≠ '\\') :
    lastSeg (dir ++ String.mk [sep] ++ fn) = fn := by
  unfold lastSeg
  have hdata : (dir ++ String.mk [sep] ++ fn).data
      = (dir.data ++ [sep]) ++ fn.data := by
    rw [String.data_append, String.data_append]
  rw [hdata, List.reverse_append]
  have hall : ∀ c ∈ fn.data.reverse,
      (fun c => decide (c ≠ '/' ∧ c ≠ '\\')) c = true := by
    intro c hc
    rcases hfn c (List.mem_reverse.mp hc) with ⟨h1, h2⟩
    simp [h1, h2]
  rw [List.takeWhile_append_of_pos hall]
  have hsepstop : ((dir.data ++ [sep]).reverse.takeWhile
      (fun c => decide (c ≠ '/' ∧ c ≠ '\\'))) = [] := by
    rw [List.reverse_append]
    rcases hsep with h | h <;> subst h <;> rfl
  rw [hsepstop, List.append_nil, List.reverse_reverse]

/-- Stripping the extension from `stem` + `"."` + dot-free non-empty `ext`
returns `stem` (the regex `\.[^.]+$` matches exactly the last dot and the
trailing extension). -/
theorem stripExt_append_ext (stem ext : String)
    (hne : ext.data ≠ []) (hdot : ∀ c ∈ ext.data, c ≠ '.') :
    stripExt (stem ++ "." ++ ext) = stem := by
  have hdata : (stem ++ "." ++ ext).data = (stem.data ++ ['.']) ++ ext.data := by
    rw [String.data_append, String.data_append]
  simp only [stripExt]
  rw [hdata, List.reverse_append]
  have hall : ∀ c ∈ ext.data.reverse, (fun c => decide (c ≠ '.')) c = true := by
    intro c hc
    simp [hdot c (List.mem_reverse.mp hc)]
  have hstop : ((stem.data ++ ['.']).reverse.takeWhile
      (fun c => decide (c ≠ '.'))) = [] := by
    rw [List.reverse_append]
    rfl
  rw [List.takeWhile_append_of_pos hall, hstop, List.append_nil]
  have hdrop : (ext.data.reverse ++ (stem.data ++ ['.']).reverse).drop
      ext.data.reverse.length = (stem.data ++ ['.']).reverse := by
    exact List.drop_left _ _
  rw [hdrop, List.reverse_append]
  show (if ext.data.reverse.isEmpty then stem ++ "." ++ ext
    else String.mk stem.data.reverse.reverse) = stem
  have hemp : ext.data.reverse.isEmpty = false := by
    cases hrev : ext.data.reverse with
    | nil => exact absurd (List.reverse_eq_nil_iff.mp hrev) hne
    | cons a l => rfl
  rw [hemp]
  show String.mk stem.data.reverse.reverse = stem
  rw [List.reverse_reverse]

/-- C9: the suggested destination name for a saved result is the source
file name's stem (extension stripped) suffixed with `_nobg.png` — for a
path-based single result, for a batch item (whose `name` is the source
file name), and `output_nobg.png` for a clipboard-origin single result
(empty source path). -/
theorem suggested_save_names (dir : String) (sep : Char) (stem ext : String)
    (hsep : sep = '/' ∨ sep = '\\')
    (hstem : ∀ c ∈ stem.data, c ≠ '/' ∧ c ≠ '\\')
    (hext : ∀ c ∈ ext.data, c ≠ '/' ∧ c ≠ '\\' ∧ c ≠ '.')
    (hne : ext.data ≠ []) :
    (∀ u r b, suggestedSingleSaveName
        ⟨u, dir ++ String.mk [sep] ++ (stem ++ "." ++ ext), r, b⟩
        = stem ++ "_nobg.png") ∧
    (∀ u r b, suggestedSingleSaveName ⟨u, "", r, b⟩ = "output_nobg.png") ∧
    (∀ item : ImageItem, item.name = stem ++ "." ++ ext →
        suggestedBatchSaveName item = stem ++ "_nobg.png") := by
  have hfn : ∀ c ∈ (stem ++ "." ++ ext).data, c ≠ '/' ∧ c ≠ '\\' := by
    intro c hc
    rw [String.data_append, String.data_append] at hc
    rcases List.mem_append.mp hc with hc' | hc'
    · rcases List.mem_append.mp hc' with hc'' | hc''
      · exact hstem c hc''
      · rcases List.mem_singleton.mp hc'' with rfl
        exact ⟨by decide, by decide⟩
    · exact ⟨(hext c hc').1, (hext c hc').2.1⟩
  have hdotext : ∀ c ∈ ext.data, c ≠ '.' := fun c hc => (hext c hc).2.2
  refine ⟨?_, ?_, ?_⟩
  · intro u r b
    have hnempty :
        strTruthy (some (dir ++ String.mk [sep] ++ (stem ++ "." ++ ext))) = true := by
      simp only [strTruthy, Bool.not_eq_true']
      cases hie : (dir ++ String.mk [sep] ++ (stem ++ "." ++ ext)).isEmpty
      · rfl
      · have := (String.isEmpty_iff _).mp hie
        have hd := congrArg String.data this
        rw [String.data_append, String.data_append] at hd
        simp at hd
    show (if strTruthy (some (dir ++ String.mk [sep] ++ (stem ++ "." ++ ext)))
        then stripExt (lastSeg (dir ++ String.mk [sep] ++ (stem ++ "." ++ ext)))
        else "output") ++ "_nobg.png" = stem ++ "_nobg.png"
    rw [hnempty]
    simp only [if_true]
    rw [lastSeg_append_sep dir sep (stem ++ "." ++ ext) hsep hfn,
      stripExt_append_ext stem ext hne hdotext]
  · intro u r b
    rfl
  · intro item hname
    show stripExt item.name ++ "_nobg.png" = stem ++ "_nobg.png"
    rw [hname, stripExt_append_ext stem ext hne hdotext]

theorem suggested_save_names_witness :
    suggestedSingleSaveName ⟨"u", "C:" ++ String.mk ['\\'] ++ ("photo" ++ "." ++ "jpg"),
      "r", false⟩ = "photo" ++ "_nobg.png" ∧
    suggestedSingleSaveName ⟨"u", "", "r", false⟩ = "output_nobg.png" :=
  ⟨(suggested_save_names "C:" '\\' "photo" "jpg" (Or.inr rfl) (by decide)
      (by decide) (by decide)).1 "u" "r" false,
   (suggested_save_names "C:" '\\' "photo" "jpg" (Or.inr rfl) (by decide)
      (by decide) (by decide)).2.1 "u" "r" false⟩

theorem background_change_routing_witness :
    onBackgroundChange stateC6 = some Command.reprocessClipboardImage ∧
    readsClipboard Command.reprocessClipboardImage = false :=
  (background_change_routing stateC6 rfl).1 "d" rfl rfl

end PureRemove
